import Mathlib

/-!
Verification of the VLU (Variable-Length Unary) integer codec of this
repository.  The repository embeds, inside its figure-generation scripts,
a C reference decoder `vlu_decode` over a 64-bit word together with an
x86-64 assembly listing of it; the byte-oriented encoder, length
classifier and buffer decoder are described in the specification.  Both
layers are embedded here over `Nat` with explicit reduction mod `2 ^ 64`.
-/

namespace VLU

/-- Trailing-zero count of a 64-bit word, returning 64 on the zero word.
This is the semantics of the x86 `tzcnt` instruction used by both
listings (`__builtin_ctzll` on the shown target compiles to `tzcnt`). -/
def ctz64 (n : Nat) : Nat :=
  match (List.range 64).find? (fun i => n.testBit i) with
  | some i => i
  | none => 64

/-- Bitwise complement of a 64-bit word: `~x` at width 64. -/
def not64 (x : Nat) : Nat := (2 ^ 64 - 1) - x % 2 ^ 64

/-- The C reference decoder from `src/scripts/vlu-figure.py` and
`src/scripts/vlu8-figure.py` (identical in both):

    int t1 = __builtin_ctzll(~vlu);
    bool cond = t1 > 7;
    int shamt = cond ? 8 : t1 + 1;
    uint64_t mask = ~(-!cond << (shamt << 3));
    uint64_t num = (vlu >> shamt) & mask;
    return (vlu_result) { num, shamt };

`-!cond` at width 64 is `2^64 - 1` when `cond` is false and `0` when it
is true; the left shift is modelled as multiplication by a power of two
followed by truncation mod `2 ^ 64` (performed inside `not64`). -/
def vlu_decode (vlu : Nat) : Nat × Nat :=
  let w := vlu % 2 ^ 64
  let t1 := ctz64 (not64 vlu)
  let shamt := if 7 < t1 then 8 else t1 + 1
  let mask := not64 ((if 7 < t1 then 0 else 2 ^ 64 - 1) * 2 ^ (shamt * 8))
  let num := (w >>> shamt) &&& mask
  (num, shamt)

/-- The x86-64 assembly listing of `vlu_decode` from the same scripts,
instruction by instruction:

    mov rcx, rdi ; not rcx ; tzcnt rcx, rcx      -- rcx := ctz(~vlu)
    xor rsi, rsi ; cmp rcx, 7 ; setne sil        -- rsi := (rcx != 7)
    lea rdx, [rcx+1] ; mov rcx, 8 ; cmovg rdx,rcx-- rdx := rcx>7 ? 8 : rcx+1
    shrx rax, rdi, rdx                           -- rax := vlu >> rdx
    lea rcx, [rdx*8] ; neg rsi                   -- rcx := rdx*8; rsi := -rsi
    shlx rsi, rsi, rcx                           -- rsi := rsi << (rcx mod 64)
    andn rax, rsi, rax                           -- rax := ~rsi & rax

`shlx` masks its shift count to 6 bits (count taken mod 64), and `tzcnt`
of zero yields 64; both are the architecturally defined behaviours. -/
def vlu_decode_asm (vlu : Nat) : Nat × Nat :=
  let rdi := vlu % 2 ^ 64
  let rcx := ctz64 (not64 vlu)
  let rsi := if rcx = 7 then 0 else 1
  let rdx := if 7 < rcx then 8 else rcx + 1
  let rax := rdi >>> rdx
  let rcx2 := rdx * 8
  let rsi2 := (2 ^ 64 - rsi) % 2 ^ 64
  let rsi3 := rsi2 * 2 ^ (rcx2 % 64) % 2 ^ 64
  let rax2 := not64 rsi3 &&& rax
  (rax2, rdx)

/-- Fuelled count of consecutive set bits from bit 0 upward. -/
def trailingOnes : Nat → Nat → Nat
  | 0, _ => 0
  | fuel + 1, b => if b % 2 = 1 then trailingOnes fuel (b / 2) + 1 else 0

/-- Modelled from the spec: the Length Classifier on the decode path
(§4.1), absent from `src/` (only the word-level C decoder appears there).
"k = number of consecutive set bits counted from bit 0 of b; if that
count reaches 8 (b == 0xFF) the result is 8 (maximal), otherwise k is
the count (0-7)". -/
def classify_from_descriptor (b : Nat) : Nat := trailingOnes 8 b

/-- Modelled from the spec: the Length Classifier on the encode path
(§4.1), absent from `src/`.  "returns the smallest k in [0,7] such that
v fits in the data-bit budget for that k (see §4.2 budgets), or 8 if v
requires the full 64-bit maximal form"; the §4.2 budget for k ≤ 7 is
`7 * (k + 1)` data bits. -/
def classify_from_value (v : Nat) : Nat :=
  if v < 2 ^ 7 then 0
  else if v < 2 ^ 14 then 1
  else if v < 2 ^ 21 then 2
  else if v < 2 ^ 28 then 3
  else if v < 2 ^ 35 then 4
  else if v < 2 ^ 42 then 5
  else if v < 2 ^ 49 then 6
  else if v < 2 ^ 56 then 7
  else 8

/-- Modelled from the spec: `encoded_length` (§6), absent from `src/`:
"a pure helper equal to the byte count the Encoder would produce",
`k + 1` bytes for `k ≤ 7` and 9 bytes for `k = 8`. -/
def encoded_length (v : Nat) : Nat := classify_from_value (v % 2 ^ 64) + 1

/-- Little-endian byte rendering of `v` into exactly `n` bytes. -/
def toLEBytes : Nat → Nat → List Nat
  | 0, _ => []
  | n + 1, v => v % 256 :: toLEBytes n (v / 256)

/-- Little-endian assembly of a byte list into a natural number. -/
def fromLEBytes : List Nat → Nat
  | [] => 0
  | b :: bs => b + 256 * fromLEBytes bs

/-- Modelled from the spec: the Encoder (§4.2), absent from `src/`.
For non-maximal `k` the descriptor byte holds `k` set bits, a clear
terminator at bit `k`, and the low `7 - k` data bits of `v` in its high
bits; the `k` payload bytes hold the next-higher data bits, least
significant payload byte first.  For `k = 8` the descriptor is `0xFF`
followed by the 8 raw little-endian value bytes. -/
def encode (v : Nat) : List Nat :=
  let w := v % 2 ^ 64
  let k := classify_from_value w
  if k = 8 then 255 :: toLEBytes 8 w
  else (2 ^ k - 1 + w % 2 ^ (7 - k) * 2 ^ (k + 1)) :: toLEBytes k (w / 2 ^ (7 - k))

/-- Decoder failure kinds (§7). -/
inductive DecodeError where
  | TruncatedInput
  | InvalidDescriptor
deriving DecidableEq, BEq, Repr

/-- Modelled from the spec: the Decoder body (§4.3) on the byte
sequence that starts at the read position, absent from `src/`.  Reads
the descriptor, classifies it, validates the terminator-is-clear rule
(failing with `InvalidDescriptor`), checks that the unit is complete
(failing with `TruncatedInput`), and reassembles the value: for
non-maximal `k` the high `7 - k` bits of the descriptor are the
low-order data bits and the `k` payload bytes (little-endian) supply
the higher-order bits; for `k = 8` the value is the little-endian
assembly of the 8 payload bytes. -/
def decodeAt : List Nat → Except DecodeError (Nat × Nat)
  | [] => .error .TruncatedInput
  | b :: rest =>
    let k := classify_from_descriptor b
    if k = 8 then
      if 8 ≤ rest.length then .ok (fromLEBytes (rest.take 8), 9)
      else .error .TruncatedInput
    else if b.testBit k then .error .InvalidDescriptor
    else if k ≤ rest.length then
      .ok (b / 2 ^ (k + 1) + fromLEBytes (rest.take k) * 2 ^ (7 - k), k + 1)
    else .error .TruncatedInput

/-- Modelled from the spec: `decode(bytes, offset)` (§4.3, §6), absent
from `src/`: reading starts at `offset`; fewer than one available byte
is a truncation failure. -/
def decode (bytes : List Nat) (offset : Nat) : Except DecodeError (Nat × Nat) :=
  decodeAt (bytes.drop offset)

/-- Data-bit budget of form `k` per the §4.2 table. -/
def bitBudget (k : Nat) : Nat := if k = 8 then 64 else 7 * (k + 1)

/-- Total unit size in bytes of form `k` per the §4.2 table. -/
def unitLength (k : Nat) : Nat := if k = 8 then 9 else k + 1

/-! Helper lemmas about the byte renderings and the classifiers. -/

theorem toLEBytes_length (n v : Nat) : (toLEBytes n v).length = n := by
  induction n generalizing v with
  | zero => rfl
  | succ m ih => simp [toLEBytes, ih]

theorem pow_mul_succ (m : Nat) : 2 ^ (8 * (m + 1)) = 256 * 2 ^ (8 * m) := by
  have h : 8 * (m + 1) = 8 * m + 8 := by ring
  rw [h, pow_add]
  norm_num [Nat.mul_comm]

theorem fromLEBytes_toLEBytes (n v : Nat) :
    fromLEBytes (toLEBytes n v) = v % 2 ^ (8 * n) := by
  induction n generalizing v with
  | zero => simp [toLEBytes, fromLEBytes, Nat.mod_one]
  | succ m ih =>
    rw [toLEBytes, fromLEBytes, ih, pow_mul_succ, Nat.mod_mul]

theorem fromLEBytes_lt (l : List Nat) (h : ∀ x ∈ l, x < 256) :
    fromLEBytes l < 2 ^ (8 * l.length) := by
  induction l with
  | nil => simp [fromLEBytes]
  | cons b bs ih =>
    have hb : b < 256 := h b (by simp)
    have hbs := ih (fun x hx => h x (by simp [hx]))
    rw [fromLEBytes, List.length_cons, pow_mul_succ]
    omega

theorem fromLEBytes_getD (l : List Nat) (h : ∀ x ∈ l, x < 256) :
    ∀ i, i < l.length → fromLEBytes l / 2 ^ (8 * i) % 256 = l.getD i 0 := by
  induction l with
  | nil => intro i hi; simp at hi
  | cons b bs ih =>
    intro i hi
    have hb : b < 256 := h b (by simp)
    cases i with
    | zero =>
      simp only [fromLEBytes, Nat.mul_zero, pow_zero, Nat.div_one, List.getD_cons_zero]
      rw [Nat.add_mul_mod_self_left, Nat.mod_eq_of_lt hb]
    | succ j =>
      have h1 : (b + 256 * fromLEBytes bs) / 256 = fromLEBytes bs := by
        rw [Nat.add_mul_div_left _ _ (by norm_num : (0:Nat) < 256),
          Nat.div_eq_of_lt hb, Nat.zero_add]
      rw [fromLEBytes, List.getD_cons_succ, pow_mul_succ,
        ← Nat.div_div_eq_div_mul, h1]
      exact ih (fun x hx => h x (by simp [hx])) j (by simpa using hi)

theorem trailingOnes_le (fuel b : Nat) : trailingOnes fuel b ≤ fuel := by
  induction fuel generalizing b with
  | zero => simp [trailingOnes]
  | succ f ih =>
    rw [trailingOnes]
    split
    · exact Nat.succ_le_succ (ih _)
    · omega

theorem trailingOnes_run (k : Nat) :
    ∀ m fuel, k < fuel → trailingOnes fuel (2 ^ k - 1 + m * 2 ^ (k + 1)) = k := by
  induction k with
  | zero =>
    intro m fuel hf
    cases fuel with
    | zero => omega
    | succ f =>
      have h2 : (2 ^ 0 - 1 + m * 2 ^ 1) % 2 = 0 := by omega
      rw [trailingOnes, h2]
      simp
  | succ j ih =>
    intro m fuel hf
    cases fuel with
    | zero => omega
    | succ f =>
      have e1 : (2:Nat) ^ (j + 1) = 2 * 2 ^ j := by ring
      have e2 : (2:Nat) ^ (j + 2) = 2 * 2 ^ (j + 1) := by ring
      have e3 : m * 2 ^ (j + 2) = 2 * (m * 2 ^ (j + 1)) := by rw [e2]; ring
      have h1 : (1:Nat) ≤ 2 ^ j := Nat.one_le_two_pow
      have hb : 2 ^ (j + 1) - 1 + m * 2 ^ (j + 2) =
          2 * (2 ^ j - 1 + m * 2 ^ (j + 1)) + 1 := by omega
      have hmod : (2 ^ (j + 1) - 1 + m * 2 ^ (j + 2)) % 2 = 1 := by omega
      have hdiv : (2 ^ (j + 1) - 1 + m * 2 ^ (j + 2)) / 2 =
          2 ^ j - 1 + m * 2 ^ (j + 1) := by omega
      rw [trailingOnes, hmod, if_pos rfl, hdiv, ih m f (by omega)]

theorem testBit_trailingOnes (fuel b : Nat) (h : trailingOnes fuel b < fuel) :
    b.testBit (trailingOnes fuel b) = false := by
  induction fuel generalizing b with
  | zero => omega
  | succ f ih =>
    rw [trailingOnes] at h ⊢
    by_cases hb : b % 2 = 1
    · rw [if_pos hb] at h ⊢
      rw [Nat.testBit_succ]
      exact ih (b / 2) (by omega)
    · rw [if_neg hb] at h ⊢
      simp [Nat.testBit_zero, hb]

theorem drop_eq_getD_cons (l : List Nat) :
    ∀ n, n < l.length → l.drop n = l.getD n 0 :: l.drop (n + 1) := by
  induction l with
  | nil => intro n h; simp at h
  | cons a t ih =>
    intro n h
    cases n with
    | zero => simp
    | succ m => simpa using ih m (by simpa using h)

theorem classify_from_value_le (v : Nat) : classify_from_value v ≤ 8 := by
  unfold classify_from_value
  split_ifs <;> omega

theorem classify_lt_budget (v : Nat) (hv : v < 2 ^ 64) :
    v < 2 ^ bitBudget (classify_from_value v) := by
  unfold classify_from_value bitBudget
  split_ifs <;> (try norm_num) <;> omega

theorem classify_lower (v : Nat) (h : 0 < classify_from_value v) :
    2 ^ bitBudget (classify_from_value v - 1) ≤ v := by
  unfold classify_from_value at h ⊢
  unfold bitBudget
  split_ifs at h ⊢ <;> (try norm_num at *) <;> omega

theorem classify_eq_8_iff (v : Nat) : classify_from_value v = 8 ↔ 2 ^ 56 ≤ v := by
  unfold classify_from_value
  split_ifs <;> (try norm_num) <;> omega

theorem classify_from_descriptor_255 : classify_from_descriptor 255 = 8 := by decide

theorem two_pow_lt_succ (k : Nat) : 2 ^ k < 2 ^ (k + 1) := by
  have e1 : (2:Nat) ^ (k + 1) = 2 * 2 ^ k := by ring
  have h1 : (1:Nat) ≤ 2 ^ k := Nat.one_le_two_pow
  omega

/-- Decoding any non-maximal unit laid out by the Encoder: descriptor
`k` ones, clear terminator, data `m` in the high descriptor bits, `q`
in the `k` little-endian payload bytes; trailing bytes are ignored. -/
theorem decodeAt_unit (k m q : Nat) (post : List Nat) (hk : k ≤ 7)
    (hqlt : q < 2 ^ (8 * k)) :
    decodeAt (((2 ^ k - 1 + m * 2 ^ (k + 1)) :: toLEBytes k q) ++ post) =
      Except.ok (m + q * 2 ^ (7 - k), k + 1) := by
  have hrun : trailingOnes 8 (2 ^ k - 1 + m * 2 ^ (k + 1)) = k :=
    trailingOnes_run k m 8 (by omega)
  have hcls : classify_from_descriptor (2 ^ k - 1 + m * 2 ^ (k + 1)) = k := hrun
  have htb : (2 ^ k - 1 + m * 2 ^ (k + 1)).testBit k = false := by
    have h1 := testBit_trailingOnes 8 (2 ^ k - 1 + m * 2 ^ (k + 1)) (by rw [hrun]; omega)
    rw [hrun] at h1
    exact h1
  have hb0div : (2 ^ k - 1 + m * 2 ^ (k + 1)) / 2 ^ (k + 1) = m := by
    rw [Nat.add_mul_div_right _ _ (pow_pos (by norm_num) (k + 1)),
      Nat.div_eq_of_lt (by have := two_pow_lt_succ k; omega), Nat.zero_add]
  have htake : (toLEBytes k q ++ post).take k = toLEBytes k q :=
    List.take_left' (toLEBytes_length k q)
  rw [List.cons_append]
  simp only [decodeAt]
  rw [hcls, if_neg (by omega : ¬ k = 8),
    if_neg (by simp [htb] : ¬ ((2 ^ k - 1 + m * 2 ^ (k + 1)).testBit k = true)),
    if_pos (by rw [List.length_append, toLEBytes_length]; omega :
      k ≤ (toLEBytes k q ++ post).length),
    htake, fromLEBytes_toLEBytes, Nat.mod_eq_of_lt hqlt, hb0div]

/-- Decoding the Encoder's output, at offset 0 of a buffer that may
contain further bytes, recovers the value and consumes the whole unit. -/
theorem decodeAt_encode (v : Nat) (hv : v < 2 ^ 64) (post : List Nat) :
    decodeAt (encode v ++ post) = Except.ok (v, classify_from_value v + 1) := by
  have hw : v % 2 ^ 64 = v := Nat.mod_eq_of_lt hv
  by_cases h8 : classify_from_value v = 8
  · have henc : encode v = 255 :: toLEBytes 8 v := by
      unfold encode
      simp only [hw]
      rw [if_pos h8]
    rw [henc, List.cons_append]
    simp only [decodeAt, classify_from_descriptor_255, if_true]
    rw [if_pos (by rw [List.length_append, toLEBytes_length]; omega :
        8 ≤ (toLEBytes 8 v ++ post).length),
      List.take_left' (toLEBytes_length 8 v), fromLEBytes_toLEBytes, h8]
    norm_num
    omega
  · have hk7 : classify_from_value v ≤ 7 := by
      have := classify_from_value_le v
      omega
    have hvk : v < 2 ^ (7 * (classify_from_value v + 1)) := by
      have h := classify_lt_budget v hv
      unfold bitBudget at h
      rw [if_neg h8] at h
      exact h
    have hqlt : v / 2 ^ (7 - classify_from_value v) < 2 ^ (8 * classify_from_value v) := by
      rw [Nat.div_lt_iff_lt_mul (pow_pos (by norm_num) _)]
      have hexp : 8 * classify_from_value v + (7 - classify_from_value v) =
          7 * (classify_from_value v + 1) := by omega
      calc v < 2 ^ (7 * (classify_from_value v + 1)) := hvk
        _ = 2 ^ (8 * classify_from_value v) * 2 ^ (7 - classify_from_value v) := by
            rw [← pow_add, hexp]
    have henc : encode v = (2 ^ classify_from_value v - 1 +
        v % 2 ^ (7 - classify_from_value v) * 2 ^ (classify_from_value v + 1)) ::
        toLEBytes (classify_from_value v) (v / 2 ^ (7 - classify_from_value v)) := by
      unfold encode
      simp only [hw]
      rw [if_neg h8]
    rw [henc, decodeAt_unit (classify_from_value v) _ _ post hk7 hqlt, Nat.mod_add_div']

/-- Byte length of the Encoder's output. -/
theorem encode_length (v : Nat) : (encode v).length = encoded_length v := by
  unfold encode encoded_length
  by_cases h8 : classify_from_value (v % 2 ^ 64) = 8
  · rw [if_pos h8, h8]
    simp [toLEBytes_length]
  · rw [if_neg h8]
    simp [toLEBytes_length, Nat.add_comm]

/-- Terminator validation never fires: the classifier returns the index
of the first clear bit (or 8), so that bit is clear by construction. -/
theorem decodeAt_ne_invalid (l : List Nat) :
    decodeAt l ≠ Except.error DecodeError.InvalidDescriptor := by
  cases l with
  | nil => simp [decodeAt]
  | cons b rest =>
    simp only [decodeAt]
    by_cases h8 : classify_from_descriptor b = 8
    · rw [if_pos h8]
      split <;> simp
    · rw [if_neg h8]
      have hle := trailingOnes_le 8 b
      have hlt : trailingOnes 8 b < 8 := by
        unfold classify_from_descriptor at h8
        omega
      have htb := testBit_trailingOnes 8 b hlt
      unfold classify_from_descriptor
      rw [htb]
      simp only [Bool.false_eq_true, if_false]
      split <;> simp

/-- A buffer shorter than the descriptor-implied unit size decodes to
a truncation failure. -/
theorem decodeAt_truncated (b : Nat) (rest : List Nat)
    (hshort : rest.length + 1 < unitLength (classify_from_descriptor b)) :
    decodeAt (b :: rest) = Except.error DecodeError.TruncatedInput := by
  unfold unitLength at hshort
  simp only [decodeAt]
  by_cases h8 : classify_from_descriptor b = 8
  · rw [h8] at hshort ⊢
    norm_num at hshort
    rw [if_pos rfl, if_neg (by omega)]
  · rw [if_neg h8] at hshort ⊢
    have hle := trailingOnes_le 8 b
    have hlt : trailingOnes 8 b < 8 := by
      unfold classify_from_descriptor at h8
      omega
    have htb := testBit_trailingOnes 8 b hlt
    unfold classify_from_descriptor at hshort ⊢
    rw [htb]
    simp only [Bool.false_eq_true, if_false]
    rw [if_neg (by omega)]

/-- Success of `decodeAt` depends only on the `consumed` first bytes:
any list agreeing on them decodes to the same value and count. -/
theorem decodeAt_local (l l2 : List Nat) (v c : Nat)
    (h : decodeAt l = Except.ok (v, c)) (hagree : l.take c = l2.take c) :
    decodeAt l2 = Except.ok (v, c) := by
  cases l with
  | nil => simp [decodeAt] at h
  | cons b rest =>
    simp only [decodeAt] at h
    by_cases h8 : classify_from_descriptor b = 8
    · rw [if_pos h8] at h
      by_cases hlen : 8 ≤ rest.length
      · rw [if_pos hlen] at h
        rw [Except.ok.injEq, Prod.mk.injEq] at h
        obtain ⟨hv, hc⟩ := h
        subst hc
        have h9 : (9:Nat) = 8 + 1 := rfl
        rw [h9, List.take_succ_cons] at hagree
        cases l2 with
        | nil => simp at hagree
        | cons b2 rest2 =>
          rw [List.take_succ_cons, List.cons.injEq] at hagree
          obtain ⟨hb, htail⟩ := hagree
          subst hb
          have hlen2 : 8 ≤ rest2.length := by
            have h1 := congrArg List.length htail
            rw [List.length_take, List.length_take] at h1
            omega
          simp only [decodeAt]
          rw [if_pos h8, if_pos hlen2, ← htail, hv]
      · rw [if_neg hlen] at h
        exact absurd h (by simp)
    · rw [if_neg h8] at h
      by_cases htb : b.testBit (classify_from_descriptor b) = true
      · rw [if_pos htb] at h
        exact absurd h (by simp)
      · rw [if_neg htb] at h
        by_cases hlen : classify_from_descriptor b ≤ rest.length
        · rw [if_pos hlen] at h
          rw [Except.ok.injEq, Prod.mk.injEq] at h
          obtain ⟨hv, hc⟩ := h
          subst hc
          rw [List.take_succ_cons] at hagree
          cases l2 with
          | nil => simp at hagree
          | cons b2 rest2 =>
            rw [List.take_succ_cons, List.cons.injEq] at hagree
            obtain ⟨hb, htail⟩ := hagree
            subst hb
            have hlen2 : classify_from_descriptor b ≤ rest2.length := by
              have h1 := congrArg List.length htail
              rw [List.length_take, List.length_take] at h1
              omega
            simp only [decodeAt]
            rw [if_neg h8, if_neg htb, if_pos hlen2, ← htail, hv]
        · rw [if_neg hlen] at h
          exact absurd h (by simp)

/-- Byte length of the Encoder's output for an in-range value. -/
theorem encode_length_eq (v : Nat) (hv : v < 2 ^ 64) :
    (encode v).length = classify_from_value v + 1 := by
  rw [encode_length]
  unfold encoded_length
  rw [Nat.mod_eq_of_lt hv]

/-! Claim theorems. -/

/-- Claim C1: for every unsigned 64-bit value `v`, `decode (encode v) 0`
returns exactly the pair `(v, encoded_length v)`: the round trip is
lossless and the consumed count equals the encoding's length. -/
theorem roundtrip_exact (v : Nat) (hv : v < 2 ^ 64) :
    decode (encode v) 0 = Except.ok (v, encoded_length v) := by
  unfold decode
  rw [List.drop_zero]
  have h := decodeAt_encode v hv []
  rw [List.append_nil] at h
  rw [h]
  unfold encoded_length
  rw [Nat.mod_eq_of_lt hv]

theorem roundtrip_exact_witness :
    decode (encode 123456789123456789) 0 =
      Except.ok (123456789123456789, encoded_length 123456789123456789) :=
  roundtrip_exact 123456789123456789 (by norm_num)

/-- Claim C2: a maximal-form unit (descriptor `0xFF`, `k = 8`) decodes
to the little-endian assembly of its 8 payload bytes, with the
descriptor discarded as a pure marker, and reports `consumed = 9`; byte
`i` of the value is payload byte `i`. -/
theorem decode_maximal_unit (rest : List Nat) (i : Nat) (h8 : rest.length = 8)
    (hb : ∀ x ∈ rest, x < 256) (hi : i < 8) :
    classify_from_descriptor 255 = 8 ∧
    decode (255 :: rest) 0 = Except.ok (fromLEBytes rest, 9) ∧
    fromLEBytes rest < 2 ^ 64 ∧
    fromLEBytes rest / 2 ^ (8 * i) % 256 = rest.getD i 0 := by
  refine ⟨classify_from_descriptor_255, ?_, ?_, ?_⟩
  · unfold decode
    rw [List.drop_zero]
    simp only [decodeAt, classify_from_descriptor_255, if_true]
    rw [if_pos (by omega : 8 ≤ rest.length), List.take_of_length_le (by omega)]
  · have h := fromLEBytes_lt rest hb
    rw [h8] at h
    norm_num at h ⊢
    exact h
  · exact fromLEBytes_getD rest hb i (by omega)

theorem decode_maximal_unit_witness :
    classify_from_descriptor 255 = 8 ∧
    decode (255 :: [1, 2, 3, 4, 5, 6, 7, 8]) 0 =
      Except.ok (fromLEBytes [1, 2, 3, 4, 5, 6, 7, 8], 9) ∧
    fromLEBytes [1, 2, 3, 4, 5, 6, 7, 8] < 2 ^ 64 ∧
    fromLEBytes [1, 2, 3, 4, 5, 6, 7, 8] / 2 ^ (8 * 3) % 256 =
      [1, 2, 3, 4, 5, 6, 7, 8].getD 3 0 :=
  decode_maximal_unit [1, 2, 3, 4, 5, 6, 7, 8] 3 rfl (by decide) (by decide)

/-- Claim C3: decoding a unit embedded at a nonzero offset, followed by
trailing bytes of a next record, consumes exactly the unit's own length,
and the result is identical for any other buffer and offset agreeing on
the unit's own bytes (neither preceding nor trailing bytes influence
the outcome; the buffer is never modified since `decode` is a pure
function of it). -/
theorem decode_embedded_unit (v : Nat) (pre post b₂ : List Nat) (o₂ : Nat)
    (hv : v < 2 ^ 64)
    (hagree : (b₂.drop o₂).take (encode v).length = encode v) :
    decode (pre ++ (encode v ++ post)) pre.length = Except.ok (v, (encode v).length) ∧
    decode b₂ o₂ = Except.ok (v, (encode v).length) := by
  have hlen := encode_length_eq v hv
  have h1 : decodeAt (encode v ++ post) = Except.ok (v, (encode v).length) := by
    rw [hlen]
    exact decodeAt_encode v hv post
  constructor
  · unfold decode
    rw [List.drop_left]
    exact h1
  · unfold decode
    refine decodeAt_local (encode v ++ post) (b₂.drop o₂) v (encode v).length h1 ?_
    rw [List.take_left' rfl, hagree]

theorem decode_embedded_unit_witness :
    decode ([7] ++ (encode 300 ++ [9, 9])) [7].length =
      Except.ok (300, (encode 300).length) ∧
    decode (encode 300 ++ [1]) 0 = Except.ok (300, (encode 300).length) :=
  decode_embedded_unit 300 [7] [9, 9] (encode 300 ++ [1]) 0 (by norm_num) (by decide)

/-- Claim C4 counterexample: the descriptor byte `0b0000_1010` does not
make `decode` fail with `InvalidDescriptor`; it is a well-formed `k = 0`
descriptor (bit 0 clear) whose high seven bits carry the data value 5,
so `decode` succeeds with value 5 and consumed 1. -/
theorem invalid_descriptor_example : decode [10] 0 = Except.ok (5, 1) ∧
    decode [10] 0 ≠ Except.error DecodeError.InvalidDescriptor := by
  refine ⟨rfl, fun hc => ?_⟩
  have h1 : Except.ok ((5 : Nat), (1 : Nat)) = Except.error DecodeError.InvalidDescriptor :=
    (show Except.ok ((5 : Nat), (1 : Nat)) = decode [10] 0 from rfl).trans hc
  exact Except.noConfusion h1

/-- Claim C4 amended: under the run-plus-terminator rule, the
continuation count is the number of consecutive set bits from bit 0, so
the bit at that index is clear by construction and every byte value is
a legal descriptor; `decode` can never fail with `InvalidDescriptor`.
In particular `0b0000_1010` is a valid `k = 0` descriptor carrying
value 5. -/
theorem invalid_descriptor_unreachable (bytes : List Nat) (offset : Nat) :
    decode bytes offset ≠ Except.error DecodeError.InvalidDescriptor :=
  decodeAt_ne_invalid (bytes.drop offset)

/-- Claim C5: a buffer that contains a unit's descriptor byte at
`offset` but fewer bytes than the descriptor implies (`k + 1` for
`k ≤ 7`, 9 for `k = 8`) makes `decode` fail with `TruncatedInput`. -/
theorem decode_truncated_unit (bytes : List Nat) (offset : Nat)
    (hoff : offset < bytes.length)
    (hshort : bytes.length - offset <
      unitLength (classify_from_descriptor (bytes.getD offset 0))) :
    decode bytes offset = Except.error DecodeError.TruncatedInput := by
  unfold decode
  rw [drop_eq_getD_cons bytes offset hoff]
  apply decodeAt_truncated
  rw [List.length_drop]
  omega

theorem decode_truncated_unit_witness :
    decode [1] 0 = Except.error DecodeError.TruncatedInput :=
  decode_truncated_unit [1] 0 (by decide) (by decide)

/-- Claim C6: a valid non-maximal unit with continuation count `k ≤ 6`
decodes so that the `7 - k` high bits of the descriptor are the value's
low-order bits (the value mod `2 ^ (7 - k)`) and the `k` little-endian
payload bytes supply the higher-order bits (the value divided by
`2 ^ (7 - k)`); consequently the value is below `2 ^ (7 * (k + 1))`. -/
theorem decode_nonmax_layout (b k : Nat) (rest : List Nat)
    (hb : b < 256) (hcls : classify_from_descriptor b = k) (hk6 : k ≤ 6)
    (hlen : k ≤ rest.length) (hrb : ∀ x ∈ rest.take k, x < 256) :
    decode (b :: rest) 0 =
      Except.ok (b / 2 ^ (k + 1) + fromLEBytes (rest.take k) * 2 ^ (7 - k), k + 1) ∧
    (b / 2 ^ (k + 1) + fromLEBytes (rest.take k) * 2 ^ (7 - k)) % 2 ^ (7 - k) =
      b / 2 ^ (k + 1) ∧
    (b / 2 ^ (k + 1) + fromLEBytes (rest.take k) * 2 ^ (7 - k)) / 2 ^ (7 - k) =
      fromLEBytes (rest.take k) ∧
    b / 2 ^ (k + 1) + fromLEBytes (rest.take k) * 2 ^ (7 - k) < 2 ^ (7 * (k + 1)) := by
  have hrun : trailingOnes 8 b = k := hcls
  have htb : b.testBit k = false := by
    have h1 := testBit_trailingOnes 8 b (by rw [hrun]; omega)
    rw [hrun] at h1
    exact h1
  have hdd : b / 2 ^ (k + 1) < 2 ^ (7 - k) := by
    rw [Nat.div_lt_iff_lt_mul (pow_pos (by norm_num) _), ← pow_add]
    have he : 7 - k + (k + 1) = 8 := by omega
    rw [he]
    norm_num
    omega
  have hfl : fromLEBytes (rest.take k) < 2 ^ (8 * k) := by
    have h1 := fromLEBytes_lt (rest.take k) hrb
    rw [List.length_take, Nat.min_eq_left hlen] at h1
    exact h1
  refine ⟨?_, ?_, ?_, ?_⟩
  · unfold decode
    rw [List.drop_zero]
    simp only [decodeAt]
    rw [hcls, if_neg (by omega : ¬ k = 8),
      if_neg (by simp [htb] : ¬ (b.testBit k = true)), if_pos hlen]
  · rw [Nat.add_mul_mod_self_right, Nat.mod_eq_of_lt hdd]
  · rw [Nat.add_mul_div_right _ _ (pow_pos (by norm_num) _),
      Nat.div_eq_of_lt hdd, Nat.zero_add]
  · have he : 2 ^ (8 * k) * 2 ^ (7 - k) = 2 ^ (7 * (k + 1)) := by
      rw [← pow_add]
      congr 1
      omega
    have h1 : (fromLEBytes (rest.take k) + 1) * 2 ^ (7 - k) =
        fromLEBytes (rest.take k) * 2 ^ (7 - k) + 2 ^ (7 - k) := by ring
    have h2 : (fromLEBytes (rest.take k) + 1) * 2 ^ (7 - k) ≤
        2 ^ (8 * k) * 2 ^ (7 - k) :=
      Nat.mul_le_mul_right _ (by omega)
    omega

theorem decode_nonmax_layout_witness :
    decode (1 :: [2, 9]) 0 =
      Except.ok (1 / 2 ^ (1 + 1) + fromLEBytes ([2, 9].take 1) * 2 ^ (7 - 1), 1 + 1) ∧
    (1 / 2 ^ (1 + 1) + fromLEBytes ([2, 9].take 1) * 2 ^ (7 - 1)) % 2 ^ (7 - 1) =
      1 / 2 ^ (1 + 1) ∧
    (1 / 2 ^ (1 + 1) + fromLEBytes ([2, 9].take 1) * 2 ^ (7 - 1)) / 2 ^ (7 - 1) =
      fromLEBytes ([2, 9].take 1) ∧
    1 / 2 ^ (1 + 1) + fromLEBytes ([2, 9].take 1) * 2 ^ (7 - 1) < 2 ^ (7 * (1 + 1)) :=
  decode_nonmax_layout 1 1 [2, 9] (by decide) (by decide) (by decide) (by decide) (by decide)

/-- Claim C7: `encoded_length` equals the size of the form chosen by the
classifier among the 9 forms of the layout table, the encoder emits that
many bytes, the value fits that form's data-bit budget, no smaller form
accommodates it (budgets grow with `k`, so it suffices that the next
smaller form fails), and the maximal form is chosen exactly when the
value needs more than 56 bits. -/
theorem encoded_length_minimal (v : Nat) (hv : v < 2 ^ 64) :
    (encode v).length = encoded_length v ∧
    encoded_length v = unitLength (classify_from_value v) ∧
    v < 2 ^ bitBudget (classify_from_value v) ∧
    (0 < classify_from_value v → 2 ^ bitBudget (classify_from_value v - 1) ≤ v) ∧
    (classify_from_value v = 8 ↔ 2 ^ 56 ≤ v) := by
  refine ⟨encode_length v, ?_, classify_lt_budget v hv, classify_lower v,
    classify_eq_8_iff v⟩
  unfold encoded_length unitLength
  rw [Nat.mod_eq_of_lt hv]
  by_cases h8 : classify_from_value v = 8
  · rw [if_pos h8, h8]
  · rw [if_neg h8]

theorem encoded_length_minimal_witness :
    (encode 128).length = encoded_length 128 ∧
    encoded_length 128 = unitLength (classify_from_value 128) ∧
    128 < 2 ^ bitBudget (classify_from_value 128) ∧
    (0 < classify_from_value 128 → 2 ^ bitBudget (classify_from_value 128 - 1) ≤ 128) ∧
    (classify_from_value 128 = 8 ↔ 2 ^ 56 ≤ 128) :=
  encoded_length_minimal 128 (by norm_num)

/-- Claim C8: the boundary encodings: `encode 0 = [0x00]`,
`encode 127 = [0xFE]`, `encode 128` is a 2-byte `k = 1` unit,
`encode (2^56 - 1)` is 8 bytes with descriptor `0x7F`, and
`encode (2^64 - 1)` is the 9-byte maximal unit with descriptor `0xFF`
and all payload bytes `0xFF`; `decode` inverts each with the correct
consumed count. -/
theorem boundary_encodings :
    encode 0 = [0] ∧
    encode 127 = [254] ∧
    (encode 128).length = 2 ∧ classify_from_value 128 = 1 ∧
    encode (2 ^ 56 - 1) = 127 :: List.replicate 7 255 ∧
    encode (2 ^ 64 - 1) = 255 :: List.replicate 8 255 ∧
    decode (encode 0) 0 = Except.ok (0, 1) ∧
    decode (encode 127) 0 = Except.ok (127, 1) ∧
    decode (encode 128) 0 = Except.ok (128, 2) ∧
    decode (encode (2 ^ 56 - 1)) 0 = Except.ok (2 ^ 56 - 1, 8) ∧
    decode (encode (2 ^ 64 - 1)) 0 = Except.ok (2 ^ 64 - 1, 9) :=
  ⟨rfl, rfl, rfl, rfl, rfl, rfl, rfl, rfl, rfl, rfl, rfl⟩

/-- Claim C9 counterexample: at input `0x1FF` (nine trailing ones) the
C reference returns value `0x1FF >> 8 = 1` while the assembly listing
returns value 0: the `setne`-derived mask in the assembly zeroes the
result whenever the trailing-ones count exceeds 7, so the two listings
do not agree on every 64-bit input word. -/
theorem asm_c_disagreement : vlu_decode 511 = (1, 8) ∧ vlu_decode_asm 511 = (0, 8) :=
  ⟨rfl, rfl⟩

/-- Claim C9 amended: the assembly listing computes the same result as
the C reference on every input whose trailing-ones count is at most 7
(including exactly 7, where the two conditions differ but the outcomes
coincide), and its `shamt` component agrees with the C on every input;
on inputs with trailing-ones count at least 8 the value components
diverge whenever the shifted word is nonzero. -/
theorem asm_c_agreement (vlu w : Nat) (h : ctz64 (not64 vlu) ≤ 7) :
    vlu_decode_asm vlu = vlu_decode vlu ∧
    (vlu_decode_asm w).2 = (vlu_decode w).2 := by
  constructor
  · by_cases h7 : ctz64 (not64 vlu) = 7
    · simp only [vlu_decode, vlu_decode_asm, h7]
      norm_num [Nat.land_comm, not64]
    · have hlt : ¬ (7 < ctz64 (not64 vlu)) := by omega
      simp only [vlu_decode, vlu_decode_asm, if_neg hlt, if_neg h7]
      have hm1 : (2 ^ 64 - 1) % 2 ^ 64 = 2 ^ 64 - 1 := Nat.mod_eq_of_lt (by norm_num)
      have hs : ((ctz64 (not64 vlu) + 1) * 8) % 64 = (ctz64 (not64 vlu) + 1) * 8 :=
        Nat.mod_eq_of_lt (by omega)
      rw [hm1, hs]
      unfold not64
      rw [Nat.mod_mod_of_dvd _ dvd_rfl, Nat.land_comm]
  · rfl

theorem asm_c_agreement_witness :
    vlu_decode_asm 3 = vlu_decode 3 ∧ (vlu_decode_asm 511).2 = (vlu_decode 511).2 :=
  asm_c_agreement 3 511 (by decide)

/-- Claim C10: the C reference decoder is total over the 64-bit domain:
it is defined on every input word (there is no error or trap branch in
its embedding) and always returns a shift amount between 1 and 8 and a
value that fits in 64 bits. -/
theorem vlu_decode_total (vlu : Nat) :
    1 ≤ (vlu_decode vlu).2 ∧ (vlu_decode vlu).2 ≤ 8 ∧ (vlu_decode vlu).1 < 2 ^ 64 := by
  refine ⟨?_, ?_, ?_⟩
  · simp only [vlu_decode]
    split <;> omega
  · simp only [vlu_decode]
    split
    · omega
    · omega
  · simp only [vlu_decode]
    calc (vlu % 2 ^ 64) >>> (if 7 < ctz64 (not64 vlu) then 8 else ctz64 (not64 vlu) + 1) &&&
        not64 ((if 7 < ctz64 (not64 vlu) then 0 else 2 ^ 64 - 1) *
          2 ^ ((if 7 < ctz64 (not64 vlu) then 8 else ctz64 (not64 vlu) + 1) * 8))
      ≤ (vlu % 2 ^ 64) >>> (if 7 < ctz64 (not64 vlu) then 8 else ctz64 (not64 vlu) + 1) :=
        Nat.and_le_left
    _ ≤ vlu % 2 ^ 64 := by
        rw [Nat.shiftRight_eq_div_pow]
        exact Nat.div_le_self _ _
    _ < 2 ^ 64 := Nat.mod_lt _ (by norm_num)

end VLU
